import Mathlib

/-!
Verification of the Pac-Man pathfinding and scoring modules.

The embedding follows the Python source closely:
- `Direction` mirrors the `Direction` enum with its displacement vectors,
  `opposite` map and fixed preference order.
- `Pathfinder` holds the maze grid (`0` = walkable, `1` = wall); `width` and
  `height` are derived exactly as in the constructor.
- Operations that can raise an index error in Python (grid accesses) are
  embedded in the `Option` monad: `none` models a raised exception.
  `choose_direction` can return Python `None` in its (unreachable) fall-through
  branch, so its value type is `Option Direction` inside the outer `Option`.
- The Python code compares `math.dist` values; since `sqrt` is strictly
  monotone on nonnegative reals, the embedding compares exact squared
  distances (integers), and theorems about Euclidean distance are stated
  with `Real.sqrt` and bridged through that monotonicity.
-/

namespace PacMan

/-- The four cardinal headings of the `Direction` enum. -/
inductive Direction where
  | UP
  | DOWN
  | LEFT
  | RIGHT
deriving DecidableEq, Repr, Fintype

/-- Displacement vector attached to each enum member:
UP=(0,-1), DOWN=(0,1), LEFT=(-1,0), RIGHT=(1,0). -/
def Direction.value : Direction → ℤ × ℤ
  | .UP => (0, -1)
  | .DOWN => (0, 1)
  | .LEFT => (-1, 0)
  | .RIGHT => (1, 0)

/-- The `opposite` property: UP↔DOWN, LEFT↔RIGHT. -/
def Direction.opposite : Direction → Direction
  | .UP => .DOWN
  | .DOWN => .UP
  | .LEFT => .RIGHT
  | .RIGHT => .LEFT

/-- Fixed direction preference order used for tie-breaking:
up, left, down, right. -/
def DIRECTION_PREFERENCE : List Direction :=
  [Direction.UP, Direction.LEFT, Direction.DOWN, Direction.RIGHT]

/-- Position of a direction in the preference list
(`DIRECTION_PREFERENCE.index(direction)` in the source). -/
def prefIndex (d : Direction) : ℕ :=
  DIRECTION_PREFERENCE.indexOf d

/-- The `Pathfinder` class: a maze as a list of rows, `0` = walkable,
`1` = wall. -/
structure Pathfinder where
  maze : List (List ℤ)

/-- Derived attribute `self.height = len(maze)`. -/
def Pathfinder.height (m : Pathfinder) : ℕ := m.maze.length

/-- Derived attribute `self.width = len(maze[0]) if maze else 0`. -/
def Pathfinder.width (m : Pathfinder) : ℕ :=
  match m.maze with
  | [] => 0
  | r :: _ => r.length

/-- The precondition that the construction grid is rectangular: every row has
the length of the first row. -/
def Pathfinder.Rect (m : Pathfinder) : Prop :=
  ∀ r ∈ m.maze, r.length = m.width

instance (m : Pathfinder) : Decidable m.Rect :=
  List.decidableBAll _ m.maze

/-- The method `is_valid_tile`: bounds check, then `self.maze[y][x] == 0`.
The grid accesses are checked (`Option`): `none` models a Python
`IndexError`, reachable only on a jagged grid. -/
def Pathfinder.isValidTile (m : Pathfinder) (x y : ℤ) : Option Bool :=
  if x < 0 ∨ (m.width : ℤ) ≤ x ∨ y < 0 ∨ (m.height : ℤ) ≤ y then
    some false
  else
    (m.maze.get? y.toNat).bind fun row =>
      (row.get? x.toNat).map fun cell => decide (cell = 0)

/-- Loop body of `get_available_exits`, iterating over the remaining tail of
`DIRECTION_PREFERENCE`: skip the reverse direction, otherwise test the
adjacent tile and append the direction when it is valid. -/
def Pathfinder.exitsAux (m : Pathfinder) (x y : ℤ) (cur : Direction) :
    List Direction → Option (List Direction)
  | [] => some []
  | d :: ds =>
    if d = cur.opposite then m.exitsAux x y cur ds
    else
      (m.isValidTile (x + (d.value).1) (y + (d.value).2)).bind fun v =>
        (m.exitsAux x y cur ds).map fun rest =>
          if v then d :: rest else rest

/-- The method `get_available_exits`: scan `DIRECTION_PREFERENCE`, skip the
reverse of the current direction, keep directions whose adjacent tile is
valid. -/
def Pathfinder.getAvailableExits (m : Pathfinder) (x y : ℤ) (cur : Direction) :
    Option (List Direction) :=
  m.exitsAux x y cur DIRECTION_PREFERENCE

/-- Squared Euclidean distance between two points. The source computes
`math.dist`, i.e. the square root of this quantity; comparisons of those
distances coincide with comparisons of this integer. -/
def distSq (x1 y1 x2 y2 : ℤ) : ℤ :=
  (x1 - x2) ^ 2 + (y1 - y2) ^ 2

/-- Squared distance from the test tile (lookahead tile plus the candidate
direction's displacement) to the target. -/
def testDist (look tgt : ℤ × ℤ) (d : Direction) : ℤ :=
  distSq (look.1 + (d.value).1) (look.2 + (d.value).2) tgt.1 tgt.2

/-- Loop body of the multi-exit branch of `choose_direction`. The accumulator
is `best_direction` paired with `best_distance`; `none` is the initial state
(`best_direction = None`, `best_distance = inf`, so the first candidate always
wins). On a strictly smaller distance the candidate replaces the best; on an
exactly equal distance it replaces the best only when it is earlier in the
preference order. -/
def stepBest (look tgt : ℤ × ℤ) (best : Option (Direction × ℤ))
    (d : Direction) : Option (Direction × ℤ) :=
  let distance := testDist look tgt d
  match best with
  | none => some (d, distance)
  | some (b, bd) =>
    if distance < bd then some (d, distance)
    else if distance = bd then
      if prefIndex d < prefIndex b then some (d, distance)
      else some (b, bd)
    else some (b, bd)

/-- The method `choose_direction`: compute the lookahead tile, collect its
exits; one exit is returned directly, zero exits force a reversal, otherwise
the multi-exit loop selects the best direction. The inner `Option Direction`
mirrors the Python `None`-initialised `best_direction` that is returned from
the loop branch. -/
def Pathfinder.chooseDirection (m : Pathfinder) (gx gy : ℤ) (cur : Direction)
    (tx ty : ℤ) : Option (Option Direction) :=
  (m.getAvailableExits (gx + (cur.value).1) (gy + (cur.value).2) cur).map
    fun exits =>
      if exits.length = 1 then exits.head?
      else if exits.length = 0 then some cur.opposite
      else (exits.foldl
        (stepBest (gx + (cur.value).1, gy + (cur.value).2) (tx, ty))
        none).map Prod.fst

/-- The method `get_next_position`: pure coordinate translation. -/
def getNextPosition (x y : ℤ) (d : Direction) : ℤ × ℤ :=
  (x + (d.value).1, y + (d.value).2)

/-- Modelled from the spec: a coordinate is valid iff it lies within grid
bounds and the cell is WALKABLE (0). Total Boolean predicate used to state
the refinement claim about `get_available_exits`. -/
def validSpec (m : Pathfinder) (x y : ℤ) : Bool :=
  decide (0 ≤ x) && decide (x < (m.width : ℤ)) &&
  decide (0 ≤ y) && decide (y < (m.height : ℤ)) &&
  decide ((m.maze.getD y.toNat []).getD x.toNat 1 = 0)

/-- Modelled from the spec: the exits at a tile are the directions of the
preference order that are not the reverse of the current direction and whose
adjacent tile is valid. -/
def exitsSpec (m : Pathfinder) (x y : ℤ) (cur : Direction) : List Direction :=
  DIRECTION_PREFERENCE.filter fun d =>
    decide (d ≠ cur.opposite) &&
      validSpec m (x + (d.value).1) (y + (d.value).2)

/-- The 5x5 maze of the reference test scenario: walls on the border, one
internal wall at (2,2). -/
def simpleMaze : Pathfinder :=
  ⟨[[1, 1, 1, 1, 1],
    [1, 0, 0, 0, 1],
    [1, 0, 1, 0, 1],
    [1, 0, 0, 0, 1],
    [1, 1, 1, 1, 1]]⟩

/-- Candidate `c` is at least as good as candidate `x` for the multi-exit
selection: strictly smaller squared distance of its test tile to the target,
or equal distance and a position in the preference order that is not later. -/
def betterSq (look tgt : ℤ × ℤ) (c x : Direction) : Prop :=
  testDist look tgt c < testDist look tgt x ∨
    (testDist look tgt c = testDist look tgt x ∧ prefIndex c ≤ prefIndex x)

/-- The `ScoreManager` class: two integer fields. -/
structure ScoreManager where
  score : ℤ
  ghost_eaten_combo : ℤ
deriving DecidableEq, Repr

/-- The constructor state: `score = 0`, `ghost_eaten_combo = 1`. -/
def ScoreManager.fresh : ScoreManager :=
  { score := 0, ghost_eaten_combo := 1 }

/-- The method `reset`: set `score = 0` and `ghost_eaten_combo = 1`. -/
def ScoreManager.reset (_s : ScoreManager) : ScoreManager :=
  { score := 0, ghost_eaten_combo := 1 }

/-- The method `add_pellet_score`: `score += 10`. -/
def ScoreManager.addPelletScore (s : ScoreManager) : ScoreManager :=
  { s with score := s.score + 10 }

/-- The method `add_power_pellet_score`: `score += 50` and the combo resets
to 1. -/
def ScoreManager.addPowerPelletScore (s : ScoreManager) : ScoreManager :=
  { score := s.score + 50, ghost_eaten_combo := 1 }

/-- The method `add_ghost_score`:
`score += (2 ** ghost_eaten_combo) * 100`, then `ghost_eaten_combo += 1`.
In every reachable state the combo is at least 1, so `Int.toNat` on the
exponent is faithful. -/
def ScoreManager.addGhostScore (s : ScoreManager) : ScoreManager :=
  { score := s.score + 2 ^ s.ghost_eaten_combo.toNat * 100,
    ghost_eaten_combo := s.ghost_eaten_combo + 1 }

/-- The four public mutating operations of `ScoreManager`. -/
inductive ScoreOp where
  | reset
  | pellet
  | powerPellet
  | ghost
deriving DecidableEq, Repr

/-- Apply one operation to a state. -/
def applyOp (s : ScoreManager) : ScoreOp → ScoreManager
  | .reset => s.reset
  | .pellet => s.addPelletScore
  | .powerPellet => s.addPowerPelletScore
  | .ghost => s.addGhostScore

/-- Run a finite sequence of operations from a state. -/
def runOps (s : ScoreManager) (ops : List ScoreOp) : ScoreManager :=
  ops.foldl applyOp s

/-- The reachability invariant of `ScoreManager`: nonnegative score, combo at
least 1. -/
def scoreInv (s : ScoreManager) : Prop :=
  0 ≤ s.score ∧ 1 ≤ s.ghost_eaten_combo

end PacMan

namespace PacMan

lemma getD_eq_get {α : Type} (l : List α) (d : α) (n : ℕ) (h : n < l.length) :
    l.getD n d = l.get ⟨n, h⟩ := by
  rw [List.getD_eq_getElem?_getD, List.getElem?_eq_getElem h]
  rfl

lemma validSpec_true_iff (m : Pathfinder) (x y : ℤ) :
    validSpec m x y = true ↔
      0 ≤ x ∧ x < (m.width : ℤ) ∧ 0 ≤ y ∧ y < (m.height : ℤ) ∧
        (m.maze.getD y.toNat []).getD x.toNat 1 = 0 := by
  simp [validSpec, and_assoc]

/-- On a rectangular grid, the checked `is_valid_tile` never raises and agrees
with the spec-level validity predicate. -/
lemma isValidTile_eq_validSpec (m : Pathfinder) (hr : m.Rect) (x y : ℤ) :
    m.isValidTile x y = some (validSpec m x y) := by
  unfold Pathfinder.isValidTile
  split
  · rename_i hb
    cases hv : validSpec m x y
    · rfl
    · obtain ⟨h1, h2, h3, h4, _⟩ := (validSpec_true_iff m x y).mp hv
      rcases hb with h | h | h | h <;> omega
  · rename_i hb
    push_neg at hb
    obtain ⟨h1, h2, h3, h4⟩ := hb
    have hy : y.toNat < m.maze.length := by
      have := m.height
      simp only [Pathfinder.height] at h4
      omega
    rw [List.get?_eq_get hy]
    have hrow : (m.maze.get ⟨y.toNat, hy⟩).length = m.width :=
      hr _ (List.get_mem m.maze y.toNat hy)
    have hx : x.toNat < (m.maze.get ⟨y.toNat, hy⟩).length := by omega
    simp only [Option.some_bind]
    rw [List.get?_eq_get hx]
    simp only [Option.map_some']
    have hD : (m.maze.getD y.toNat []).getD x.toNat 1 =
        (m.maze.get ⟨y.toNat, hy⟩).get ⟨x.toNat, hx⟩ := by
      rw [getD_eq_get m.maze [] y.toNat hy, getD_eq_get _ 1 x.toNat hx]
    have hV : validSpec m x y =
        decide ((m.maze.get ⟨y.toNat, hy⟩).get ⟨x.toNat, hx⟩ = 0) := by
      simp only [validSpec, hD]
      simp [h1, h2, h3, h4]
    rw [hV]

/-- On a rectangular grid the exit-enumeration loop never raises and computes
exactly the spec-level filter over the preference order. -/
lemma exitsAux_eq_filter (m : Pathfinder) (hr : m.Rect) (x y : ℤ)
    (cur : Direction) (ds : List Direction) :
    m.exitsAux x y cur ds = some (ds.filter fun d =>
      decide (d ≠ cur.opposite) &&
        validSpec m (x + (d.value).1) (y + (d.value).2)) := by
  induction ds with
  | nil => rfl
  | cons d ds ih =>
    by_cases h : d = cur.opposite
    · simp [Pathfinder.exitsAux, h, ih, List.filter_cons]
    · rw [Pathfinder.exitsAux, if_neg h,
        isValidTile_eq_validSpec m hr _ _, ih]
      cases hv : validSpec m (x + (d.value).1) (y + (d.value).2) <;>
        simp [List.filter_cons, h, hv]

lemma getAvailableExits_eq_spec (m : Pathfinder) (hr : m.Rect) (x y : ℤ)
    (cur : Direction) :
    m.getAvailableExits x y cur = some (exitsSpec m x y cur) :=
  exitsAux_eq_filter m hr x y cur DIRECTION_PREFERENCE

/-- Whenever the exit loop succeeds, every returned direction is not the
reverse of the current direction and points at a tile the checked validity
test accepts; no rectangularity assumption is needed. -/
lemma exitsAux_mem (m : Pathfinder) (x y : ℤ) (cur : Direction) :
    ∀ (ds l : List Direction), m.exitsAux x y cur ds = some l →
      ∀ d ∈ l, d ≠ cur.opposite ∧
        m.isValidTile (x + (d.value).1) (y + (d.value).2) = some true := by
  intro ds
  induction ds with
  | nil =>
    intro l hl d hd
    simp only [Pathfinder.exitsAux, Option.some.injEq] at hl
    subst hl
    cases hd
  | cons e ds ih =>
    intro l hl d hd
    by_cases h : e = cur.opposite
    · rw [Pathfinder.exitsAux, if_pos h] at hl
      exact ih l hl d hd
    · rw [Pathfinder.exitsAux, if_neg h] at hl
      cases hv : m.isValidTile (x + (e.value).1) (y + (e.value).2) with
      | none => rw [hv] at hl; cases hl
      | some v =>
        rw [hv] at hl
        cases hrest : m.exitsAux x y cur ds with
        | none => rw [hrest] at hl; cases hl
        | some rest =>
          rw [hrest] at hl
          simp only [Option.some_bind, Option.map_some', Option.some.injEq]
            at hl
          cases v with
          | false =>
            subst hl
            exact ih rest hrest d hd
          | true =>
            subst hl
            rcases List.mem_cons.mp hd with rfl | hd'
            · exact ⟨h, hv⟩
            · exact ih rest hrest d hd'

lemma betterSq_refl (look tgt : ℤ × ℤ) (c : Direction) :
    betterSq look tgt c c :=
  Or.inr ⟨rfl, le_refl _⟩

lemma betterSq_trans (look tgt : ℤ × ℤ) {a b c : Direction}
    (h1 : betterSq look tgt a b) (h2 : betterSq look tgt b c) :
    betterSq look tgt a c := by
  rcases h1 with h1 | ⟨e1, p1⟩ <;> rcases h2 with h2 | ⟨e2, p2⟩
  · exact Or.inl (lt_trans h1 h2)
  · exact Or.inl (e2 ▸ h1)
  · exact Or.inl (lt_of_le_of_lt (le_of_eq e1) h2)
  · exact Or.inr ⟨e1.trans e2, le_trans p1 p2⟩

lemma prefIndex_inj_all : ∀ a b : Direction, prefIndex a = prefIndex b →
    a = b := by
  decide

lemma prefIndex_inj {a b : Direction} (h : prefIndex a = prefIndex b) :
    a = b :=
  prefIndex_inj_all a b h

/-- The selection loop, started on a nonempty accumulator carrying the test
distance of its own direction, returns a best direction together with its
test distance: a member of the candidate pool that is at least as good as
every candidate. -/
lemma foldl_stepBest_spec (look tgt : ℤ × ℤ) (l : List Direction) :
    ∀ b : Direction,
      ∃ c, l.foldl (stepBest look tgt)
            (some (b, testDist look tgt b)) = some (c, testDist look tgt c) ∧
        c ∈ b :: l ∧ ∀ x ∈ b :: l, betterSq look tgt c x := by
  induction l with
  | nil =>
    intro b
    refine ⟨b, rfl, List.mem_cons_self b [], ?_⟩
    intro x hx
    rcases List.mem_cons.mp hx with rfl | hx
    · exact betterSq_refl look tgt x
    · cases hx
  | cons d l ih =>
    intro b
    have hstep : ∃ b', stepBest look tgt (some (b, testDist look tgt b)) d =
        some (b', testDist look tgt b') ∧ (b' = b ∨ b' = d) ∧
        betterSq look tgt b' b ∧ betterSq look tgt b' d := by
      by_cases h1 : testDist look tgt d < testDist look tgt b
      · refine ⟨d, ?_, Or.inr rfl, Or.inl h1, betterSq_refl look tgt d⟩
        simp only [stepBest, if_pos h1]
      · by_cases h2 : testDist look tgt d = testDist look tgt b
        · by_cases h3 : prefIndex d < prefIndex b
          · refine ⟨d, ?_, Or.inr rfl, Or.inr ⟨h2, le_of_lt h3⟩,
              betterSq_refl look tgt d⟩
            simp only [stepBest, if_neg h1, if_pos h2, if_pos h3]
          · refine ⟨b, ?_, Or.inl rfl, betterSq_refl look tgt b,
              Or.inr ⟨h2.symm, le_of_not_lt h3⟩⟩
            simp only [stepBest, if_neg h1, if_pos h2, if_neg h3]
        · refine ⟨b, ?_, Or.inl rfl, betterSq_refl look tgt b, ?_⟩
          · simp only [stepBest, if_neg h1, if_neg h2]
          · exact Or.inl (lt_of_le_of_ne (le_of_not_lt h1) (Ne.symm h2))
    obtain ⟨b', hb'eq, hb'cases, hb'b, hb'd⟩ := hstep
    obtain ⟨c, hc, hmem, hall⟩ := ih b'
    refine ⟨c, ?_, ?_, ?_⟩
    · rw [List.foldl_cons, hb'eq]
      exact hc
    · rcases List.mem_cons.mp hmem with rfl | hmem'
      · rcases hb'cases with rfl | rfl
        · exact List.mem_cons_self c _
        · exact List.mem_cons_of_mem b (List.mem_cons_self c _)
      · exact List.mem_cons_of_mem b (List.mem_cons_of_mem d hmem')
    · have hcb' : betterSq look tgt c b' := hall b' (List.mem_cons_self b' l)
      intro x hx
      rcases List.mem_cons.mp hx with rfl | hx'
      · exact betterSq_trans look tgt hcb' hb'b
      · rcases List.mem_cons.mp hx' with rfl | hx''
        · exact betterSq_trans look tgt hcb' hb'd
        · exact hall x (List.mem_cons_of_mem b' hx'')

/-- Unfolding of `choose_direction` at a known exits list. -/
lemma chooseDirection_eq (m : Pathfinder) (gx gy : ℤ) (cur : Direction)
    (tx ty : ℤ) (l : List Direction)
    (hl : m.getAvailableExits (gx + (cur.value).1) (gy + (cur.value).2) cur =
      some l) :
    m.chooseDirection gx gy cur tx ty = some
      (if l.length = 1 then l.head?
       else if l.length = 0 then some cur.opposite
       else (l.foldl
          (stepBest (gx + (cur.value).1, gy + (cur.value).2) (tx, ty))
          none).map Prod.fst) := by
  unfold Pathfinder.chooseDirection
  rw [hl, Option.map_some']

/-- With at least two exits, the loop branch is taken and the selected
direction is a best member of the exits list. -/
lemma chooseDirection_multi (m : Pathfinder) (gx gy : ℤ) (cur : Direction)
    (tx ty : ℤ) (l : List Direction)
    (hl : m.getAvailableExits (gx + (cur.value).1) (gy + (cur.value).2) cur =
      some l) (h2 : 2 ≤ l.length) :
    ∃ c, m.chooseDirection gx gy cur tx ty = some (some c) ∧ c ∈ l ∧
      ∀ x ∈ l, betterSq (gx + (cur.value).1, gy + (cur.value).2) (tx, ty)
        c x := by
  cases l with
  | nil => simp at h2
  | cons d rest =>
    obtain ⟨c, hc, hmem, hall⟩ :=
      foldl_stepBest_spec (gx + (cur.value).1, gy + (cur.value).2) (tx, ty)
        rest d
    refine ⟨c, ?_, hmem, hall⟩
    rw [chooseDirection_eq m gx gy cur tx ty (d :: rest) hl]
    have hlen : (d :: rest).length ≠ 1 := by
      simp only [List.length_cons] at h2 ⊢
      omega
    rw [if_neg hlen, if_neg (by simp)]
    rw [List.foldl_cons]
    have h0 : stepBest (gx + (cur.value).1, gy + (cur.value).2) (tx, ty)
        none d = some (d, testDist (gx + (cur.value).1, gy + (cur.value).2)
          (tx, ty) d) := rfl
    rw [h0, hc, Option.map_some']

/-- With exactly one exit, that exit is returned. -/
lemma chooseDirection_single (m : Pathfinder) (gx gy : ℤ) (cur : Direction)
    (tx ty : ℤ) (d : Direction)
    (hl : m.getAvailableExits (gx + (cur.value).1) (gy + (cur.value).2) cur =
      some [d]) :
    m.chooseDirection gx gy cur tx ty = some (some d) := by
  rw [chooseDirection_eq m gx gy cur tx ty [d] hl]
  rfl

/-- With no exits, the reversal branch is taken. -/
lemma chooseDirection_empty (m : Pathfinder) (gx gy : ℤ) (cur : Direction)
    (tx ty : ℤ)
    (hl : m.getAvailableExits (gx + (cur.value).1) (gy + (cur.value).2) cur =
      some []) :
    m.chooseDirection gx gy cur tx ty = some (some cur.opposite) := by
  rw [chooseDirection_eq m gx gy cur tx ty [] hl]
  rfl

/-- On a rectangular grid `choose_direction` always succeeds and always
yields a direction: the `None`-initialised best of the loop branch is
replaced on the first iteration. -/
lemma chooseDirection_total (m : Pathfinder) (hr : m.Rect) (gx gy : ℤ)
    (cur : Direction) (tx ty : ℤ) :
    ∃ r, m.chooseDirection gx gy cur tx ty = some (some r) := by
  have hl := getAvailableExits_eq_spec m hr (gx + (cur.value).1)
    (gy + (cur.value).2) cur
  match hcase : exitsSpec m (gx + (cur.value).1) (gy + (cur.value).2) cur with
  | [] =>
    exact ⟨cur.opposite, chooseDirection_empty m gx gy cur tx ty
      (hcase ▸ hl)⟩
  | [d] =>
    exact ⟨d, chooseDirection_single m gx gy cur tx ty d (hcase ▸ hl)⟩
  | d :: e :: rest =>
    obtain ⟨c, hc, _, _⟩ := chooseDirection_multi m gx gy cur tx ty
      (d :: e :: rest) (hcase ▸ hl) (by simp only [List.length_cons]; omega)
    exact ⟨c, hc⟩

end PacMan

namespace PacMan

lemma scoreInv_fresh : scoreInv ScoreManager.fresh := by
  constructor <;> decide

lemma scoreInv_applyOp (s : ScoreManager) (op : ScoreOp) (h : scoreInv s) :
    scoreInv (applyOp s op) := by
  obtain ⟨h1, h2⟩ := h
  cases op with
  | reset => exact ⟨le_refl 0, le_refl 1⟩
  | pellet => exact ⟨by simp [applyOp, ScoreManager.addPelletScore]; omega, h2⟩
  | powerPellet =>
    exact ⟨by simp [applyOp, ScoreManager.addPowerPelletScore]; omega, le_refl 1⟩
  | ghost =>
    refine ⟨?_, ?_⟩
    · have hp : (0 : ℤ) ≤ 2 ^ s.ghost_eaten_combo.toNat * 100 := by positivity
      simp only [applyOp, ScoreManager.addGhostScore]
      omega
    · simp only [applyOp, ScoreManager.addGhostScore]
      omega

lemma scoreInv_runOps (ops : List ScoreOp) (s : ScoreManager)
    (h : scoreInv s) : scoreInv (runOps s ops) := by
  induction ops generalizing s with
  | nil => exact h
  | cons op ops ih => exact ih _ (scoreInv_applyOp s op h)

lemma applyOp_score_mono (s : ScoreManager) (op : ScoreOp)
    (hop : op ≠ ScoreOp.reset) : s.score ≤ (applyOp s op).score := by
  cases op with
  | reset => exact absurd rfl hop
  | pellet => simp [applyOp, ScoreManager.addPelletScore]
  | powerPellet => simp [applyOp, ScoreManager.addPowerPelletScore]
  | ghost =>
    have hp : (0 : ℤ) ≤ 2 ^ s.ghost_eaten_combo.toNat * 100 := by positivity
    simp only [applyOp, ScoreManager.addGhostScore]
    omega

end PacMan

namespace PacMan

/-- C7: `add_ghost_score` adds `(2 ^ comboMultiplier) * 100` to the score
using the pre-increment value of the combo multiplier and then increments the
combo by 1; from a fresh `ScoreManager`, four consecutive calls add 200, 400,
800, 1600, giving cumulative scores 200, 600, 1400, 3000 and final combo 5. -/
theorem ghost_score_doubles_and_increments :
    (∀ (s : ScoreManager) (n : ℕ), s.ghost_eaten_combo = (n : ℤ) →
      s.addGhostScore.score = s.score + 2 ^ n * 100 ∧
      s.addGhostScore.ghost_eaten_combo = s.ghost_eaten_combo + 1) ∧
    runOps ScoreManager.fresh [ScoreOp.ghost] =
      { score := 200, ghost_eaten_combo := 2 } ∧
    runOps ScoreManager.fresh [ScoreOp.ghost, ScoreOp.ghost] =
      { score := 600, ghost_eaten_combo := 3 } ∧
    runOps ScoreManager.fresh [ScoreOp.ghost, ScoreOp.ghost, ScoreOp.ghost] =
      { score := 1400, ghost_eaten_combo := 4 } ∧
    runOps ScoreManager.fresh
        [ScoreOp.ghost, ScoreOp.ghost, ScoreOp.ghost, ScoreOp.ghost] =
      { score := 3000, ghost_eaten_combo := 5 } := by
  refine ⟨?_, by decide, by decide, by decide, by decide⟩
  intro s n hn
  refine ⟨?_, rfl⟩
  simp [ScoreManager.addGhostScore, hn]

/-- Witness for C7 at the fresh state, whose combo is 1: the first call adds
exactly 200. -/
theorem ghost_score_doubles_and_increments_witness :
    ScoreManager.fresh.ghost_eaten_combo = ((1 : ℕ) : ℤ) ∧
    (ScoreManager.fresh.addGhostScore.score =
        ScoreManager.fresh.score + 2 ^ 1 * 100 ∧
      ScoreManager.fresh.addGhostScore.ghost_eaten_combo =
        ScoreManager.fresh.ghost_eaten_combo + 1) :=
  ⟨by decide,
    ghost_score_doubles_and_increments.1 ScoreManager.fresh 1 (by decide)⟩

/-- C8: along every finite operation sequence from a fresh `ScoreManager`,
the score stays a nonnegative integer and does not decrease across any
operation except `reset`, the combo multiplier stays at least 1, and `reset`
from any reachable state restores exactly the fresh state. -/
theorem score_manager_invariants (ops : List ScoreOp) (op : ScoreOp)
    (hop : op ≠ ScoreOp.reset) :
    0 ≤ (runOps ScoreManager.fresh ops).score ∧
    1 ≤ (runOps ScoreManager.fresh ops).ghost_eaten_combo ∧
    (runOps ScoreManager.fresh ops).score ≤
      (applyOp (runOps ScoreManager.fresh ops) op).score ∧
    applyOp (runOps ScoreManager.fresh ops) ScoreOp.reset =
      ScoreManager.fresh := by
  obtain ⟨h1, h2⟩ := scoreInv_runOps ops ScoreManager.fresh scoreInv_fresh
  exact ⟨h1, h2, applyOp_score_mono _ op hop, rfl⟩

/-- Witness for C8 on the sequence ghost-then-pellet with a pellet step
afterwards. -/
theorem score_manager_invariants_witness :
    ScoreOp.pellet ≠ ScoreOp.reset ∧
    (0 ≤ (runOps ScoreManager.fresh [ScoreOp.ghost, ScoreOp.pellet]).score ∧
      1 ≤ (runOps ScoreManager.fresh
            [ScoreOp.ghost, ScoreOp.pellet]).ghost_eaten_combo ∧
      (runOps ScoreManager.fresh [ScoreOp.ghost, ScoreOp.pellet]).score ≤
        (applyOp (runOps ScoreManager.fresh [ScoreOp.ghost, ScoreOp.pellet])
          ScoreOp.pellet).score ∧
      applyOp (runOps ScoreManager.fresh [ScoreOp.ghost, ScoreOp.pellet])
        ScoreOp.reset = ScoreManager.fresh) :=
  ⟨by decide,
    score_manager_invariants [ScoreOp.ghost, ScoreOp.pellet] ScoreOp.pellet
      (by decide)⟩

/-- C9: from every `ScoreManager` state, `add_pellet_score` increases the
score by exactly 10 and leaves the combo field unchanged. -/
theorem pellet_score_frame (s : ScoreManager) :
    s.addPelletScore.score = s.score + 10 ∧
    s.addPelletScore.ghost_eaten_combo = s.ghost_eaten_combo :=
  ⟨rfl, rfl⟩

lemma testDist_nonneg (look tgt : ℤ × ℤ) (d : Direction) :
    0 ≤ testDist look tgt d := by
  unfold testDist distSq
  positivity

/-- C1: whenever the exits list at the lookahead tile has at least two
elements, `choose_direction` returns the exit whose test tile (two tiles
ahead) has strictly smallest Euclidean distance to the target; on exact
equality of distance between the current best and a new candidate, the
candidate earlier in the preference order UP, LEFT, DOWN, RIGHT is kept. -/
theorem choose_direction_minimizes_euclidean (m : Pathfinder) (gx gy : ℤ)
    (cur : Direction) (tx ty : ℤ) (l : List Direction)
    (hl : m.getAvailableExits (gx + (cur.value).1) (gy + (cur.value).2) cur =
      some l) (h2 : 2 ≤ l.length) :
    ∃ c, m.chooseDirection gx gy cur tx ty = some (some c) ∧ c ∈ l ∧
      ∀ d ∈ l, d ≠ c →
        Real.sqrt ((testDist (gx + (cur.value).1, gy + (cur.value).2)
            (tx, ty) c : ℤ) : ℝ) <
          Real.sqrt ((testDist (gx + (cur.value).1, gy + (cur.value).2)
            (tx, ty) d : ℤ) : ℝ) ∨
        (Real.sqrt ((testDist (gx + (cur.value).1, gy + (cur.value).2)
            (tx, ty) c : ℤ) : ℝ) =
          Real.sqrt ((testDist (gx + (cur.value).1, gy + (cur.value).2)
            (tx, ty) d : ℤ) : ℝ) ∧ prefIndex c < prefIndex d) := by
  obtain ⟨c, hc, hcm, hall⟩ := chooseDirection_multi m gx gy cur tx ty l hl h2
  refine ⟨c, hc, hcm, ?_⟩
  intro d hd hne
  rcases hall d hd with hlt | ⟨heq, hle⟩
  · left
    apply Real.sqrt_lt_sqrt
    · exact_mod_cast testDist_nonneg _ _ c
    · exact_mod_cast hlt
  · right
    refine ⟨by rw [heq], ?_⟩
    exact lt_of_le_of_ne hle fun h => hne (prefIndex_inj h).symm

/-- Witness for C1: at the lookahead tile (2,1) of the reference maze the
exits are LEFT and RIGHT, and the theorem applies. -/
theorem choose_direction_minimizes_euclidean_witness :
    simpleMaze.getAvailableExits (2 + (Direction.UP.value).1)
        (2 + (Direction.UP.value).2) Direction.UP =
      some [Direction.LEFT, Direction.RIGHT] ∧
    2 ≤ [Direction.LEFT, Direction.RIGHT].length ∧
    (∃ c, simpleMaze.chooseDirection 2 2 Direction.UP 3 3 = some (some c) ∧
      c ∈ [Direction.LEFT, Direction.RIGHT] ∧
      ∀ d ∈ [Direction.LEFT, Direction.RIGHT], d ≠ c →
        Real.sqrt ((testDist (2 + (Direction.UP.value).1,
            2 + (Direction.UP.value).2) (3, 3) c : ℤ) : ℝ) <
          Real.sqrt ((testDist (2 + (Direction.UP.value).1,
            2 + (Direction.UP.value).2) (3, 3) d : ℤ) : ℝ) ∨
        (Real.sqrt ((testDist (2 + (Direction.UP.value).1,
            2 + (Direction.UP.value).2) (3, 3) c : ℤ) : ℝ) =
          Real.sqrt ((testDist (2 + (Direction.UP.value).1,
            2 + (Direction.UP.value).2) (3, 3) d : ℤ) : ℝ) ∧
          prefIndex c < prefIndex d)) :=
  ⟨by decide, by decide,
    choose_direction_minimizes_euclidean simpleMaze 2 2 Direction.UP 3 3
      [Direction.LEFT, Direction.RIGHT] (by decide) (by decide)⟩

/-- C2 counterexample: on the reference 5x5 maze, a ghost at (2,2) heading UP
with target (3,3) makes the code return RIGHT, not DOWN: the lookahead tile
(2,1) has the two exits LEFT and RIGHT, and RIGHT's test tile (3,1) is
strictly closer to (3,3). -/
theorem choose_direction_at_wall_tile_returns_right :
    simpleMaze.chooseDirection 2 2 Direction.UP 3 3 =
      some (some Direction.RIGHT) ∧
    simpleMaze.chooseDirection 2 2 Direction.UP 3 3 ≠
      some (some Direction.DOWN) := by
  decide

/-- C2 as amended: on the reference 5x5 maze the dead-end reversal scenario
is a ghost at (1,1) heading UP with target (3,3), as in the repository's own
test; there the lookahead tile (1,0) has no exits and the code returns
DOWN. -/
theorem choose_direction_dead_end_scenario :
    simpleMaze.chooseDirection 1 1 Direction.UP 3 3 =
      some (some Direction.DOWN) := by
  decide

/-- C3: on a rectangular grid, `get_available_exits` returns exactly the
directions of the preference order UP, LEFT, DOWN, RIGHT that are not the
reverse of the current direction and whose adjacent tile is in bounds and
walkable; the result never contains the reverse direction and is a
subsequence of the preference order, and out-of-bounds adjacent tiles are
excluded rather than raising an error. -/
theorem get_available_exits_filter_spec (m : Pathfinder) (x y : ℤ)
    (cur : Direction) (hr : m.Rect) :
    m.getAvailableExits x y cur = some (exitsSpec m x y cur) ∧
    cur.opposite ∉ exitsSpec m x y cur ∧
    (exitsSpec m x y cur).Sublist DIRECTION_PREFERENCE := by
  refine ⟨getAvailableExits_eq_spec m hr x y cur, ?_, List.filter_sublist _⟩
  intro hmem
  have h := (List.mem_filter.mp hmem).2
  simp at h

/-- Witness for C3 at tile (2,1) of the reference maze, heading UP. -/
theorem get_available_exits_filter_spec_witness :
    simpleMaze.Rect ∧
    (simpleMaze.getAvailableExits 2 1 Direction.UP =
        some (exitsSpec simpleMaze 2 1 Direction.UP) ∧
      Direction.UP.opposite ∉ exitsSpec simpleMaze 2 1 Direction.UP ∧
      (exitsSpec simpleMaze 2 1 Direction.UP).Sublist DIRECTION_PREFERENCE) :=
  ⟨by decide,
    get_available_exits_filter_spec simpleMaze 2 1 Direction.UP (by decide)⟩

/-- C4 counterexample: an out-of-bounds ghost position does not always yield
an empty exits list with a forced reversal: the ghost at (-1,1) heading
RIGHT is outside the reference maze, yet its lookahead tile (0,1) lies
inside and has the exit RIGHT, so the code returns RIGHT, not the reverse
heading LEFT. -/
theorem out_of_bounds_ghost_no_reversal :
    (-1 : ℤ) < 0 ∧
    simpleMaze.getAvailableExits (-1 + (Direction.RIGHT.value).1)
        (1 + (Direction.RIGHT.value).2) Direction.RIGHT ≠ some [] ∧
    simpleMaze.chooseDirection (-1) 1 Direction.RIGHT 3 3 =
      some (some Direction.RIGHT) ∧
    Direction.RIGHT ≠ Direction.RIGHT.opposite := by
  decide

/-- C4 as amended: if the exits list at the lookahead tile is empty,
`choose_direction` returns the opposite of the current heading; and on a
rectangular grid no ghost coordinates, however malformed, make the decision
raise an error (coordinates malformed enough that the lookahead tile has no
valid exits fall into the reversal branch; an out-of-bounds ghost whose
lookahead tile is inside the maze may instead get nonempty exits). -/
theorem dead_end_reversal_and_no_error (m : Pathfinder) (cur : Direction)
    (tx ty : ℤ) (hr : m.Rect) :
    (∀ gx gy : ℤ,
      m.getAvailableExits (gx + (cur.value).1) (gy + (cur.value).2) cur =
        some [] →
      m.chooseDirection gx gy cur tx ty = some (some cur.opposite)) ∧
    (∀ gx gy : ℤ, ∃ r,
      m.chooseDirection gx gy cur tx ty = some (some r)) :=
  ⟨fun gx gy hl => chooseDirection_empty m gx gy cur tx ty hl,
    fun gx gy => chooseDirection_total m hr gx gy cur tx ty⟩

/-- Witness for C4 on the reference maze, heading UP with target (3,3). -/
theorem dead_end_reversal_and_no_error_witness :
    simpleMaze.Rect ∧
    ((∀ gx gy : ℤ,
        simpleMaze.getAvailableExits (gx + (Direction.UP.value).1)
          (gy + (Direction.UP.value).2) Direction.UP = some [] →
        simpleMaze.chooseDirection gx gy Direction.UP 3 3 =
          some (some Direction.UP.opposite)) ∧
      (∀ gx gy : ℤ, ∃ r,
        simpleMaze.chooseDirection gx gy Direction.UP 3 3 =
          some (some r))) :=
  ⟨by decide,
    dead_end_reversal_and_no_error simpleMaze Direction.UP 3 3 (by decide)⟩

/-- C5: if the exits list at the lookahead tile has exactly one element,
`choose_direction` returns exactly that element. -/
theorem single_exit_forced_corridor (m : Pathfinder) (gx gy : ℤ)
    (cur : Direction) (tx ty : ℤ) (d : Direction)
    (hl : m.getAvailableExits (gx + (cur.value).1) (gy + (cur.value).2) cur =
      some [d]) :
    m.chooseDirection gx gy cur tx ty = some (some d) :=
  chooseDirection_single m gx gy cur tx ty d hl

/-- Witness for C5: a ghost at (1,3) of the reference maze heading UP has the
single exit UP at its lookahead tile (1,2). -/
theorem single_exit_forced_corridor_witness :
    simpleMaze.getAvailableExits (1 + (Direction.UP.value).1)
        (3 + (Direction.UP.value).2) Direction.UP = some [Direction.UP] ∧
    simpleMaze.chooseDirection 1 3 Direction.UP 3 3 =
      some (some Direction.UP) :=
  ⟨by decide,
    single_exit_forced_corridor simpleMaze 1 3 Direction.UP 3 3 Direction.UP
      (by decide)⟩

/-- C6: under the rectangularity precondition every navigator operation is
total over all integer inputs: `is_valid_tile` and `get_available_exits`
never raise, `choose_direction` always selects some direction (the
`None`-initialised best of the multi-exit branch is always replaced), and
`get_next_position` is a pure translation defined everywhere. -/
theorem navigator_total_on_rect (m : Pathfinder) (hr : m.Rect)
    (x y gx gy tx ty : ℤ) (cur d : Direction) :
    (m.isValidTile x y).isSome = true ∧
    (m.getAvailableExits x y cur).isSome = true ∧
    (∃ r, m.chooseDirection gx gy cur tx ty = some (some r)) ∧
    getNextPosition x y d = (x + (d.value).1, y + (d.value).2) := by
  refine ⟨?_, ?_, chooseDirection_total m hr gx gy cur tx ty, rfl⟩
  · rw [isValidTile_eq_validSpec m hr]
    rfl
  · rw [getAvailableExits_eq_spec m hr]
    rfl

/-- Witness for C6 at concrete inputs on the reference maze. -/
theorem navigator_total_on_rect_witness :
    simpleMaze.Rect ∧
    ((simpleMaze.isValidTile 7 (-2)).isSome = true ∧
      (simpleMaze.getAvailableExits 7 (-2) Direction.LEFT).isSome = true ∧
      (∃ r, simpleMaze.chooseDirection 0 0 Direction.LEFT 3 3 =
        some (some r)) ∧
      getNextPosition 7 (-2) Direction.RIGHT =
        (7 + (Direction.RIGHT.value).1, -2 + (Direction.RIGHT.value).2)) :=
  ⟨by decide,
    navigator_total_on_rect simpleMaze (by decide) 7 (-2) 0 0 3 3
      Direction.LEFT Direction.RIGHT⟩

/-- C10: the direction returned by `choose_direction` is a member of the
exits list at the lookahead tile whenever that list is nonempty — and then
it is not the reverse of the current heading and points at a walkable
in-bounds tile — and equals the reverse of the current heading exactly when
the list is empty. -/
theorem chosen_direction_membership (m : Pathfinder) (gx gy : ℤ)
    (cur : Direction) (tx ty : ℤ) (l : List Direction)
    (hl : m.getAvailableExits (gx + (cur.value).1) (gy + (cur.value).2) cur =
      some l) :
    (l = [] →
      m.chooseDirection gx gy cur tx ty = some (some cur.opposite)) ∧
    (l ≠ [] → ∃ d, m.chooseDirection gx gy cur tx ty = some (some d) ∧
      d ∈ l ∧ d ≠ cur.opposite ∧
      m.isValidTile (gx + (cur.value).1 + (d.value).1)
        (gy + (cur.value).2 + (d.value).2) = some true) ∧
    (m.chooseDirection gx gy cur tx ty = some (some cur.opposite) →
      l = []) := by
  have hmem : ∀ d ∈ l, d ≠ cur.opposite ∧
      m.isValidTile (gx + (cur.value).1 + (d.value).1)
        (gy + (cur.value).2 + (d.value).2) = some true :=
    exitsAux_mem m (gx + (cur.value).1) (gy + (cur.value).2) cur
      DIRECTION_PREFERENCE l hl
  have hpos : l ≠ [] → ∃ d,
      m.chooseDirection gx gy cur tx ty = some (some d) ∧ d ∈ l ∧
      d ≠ cur.opposite ∧
      m.isValidTile (gx + (cur.value).1 + (d.value).1)
        (gy + (cur.value).2 + (d.value).2) = some true := by
    intro hne
    cases l with
    | nil => exact absurd rfl hne
    | cons d rest =>
      cases rest with
      | nil =>
        have hd : d ∈ [d] := List.mem_cons_self d []
        exact ⟨d, chooseDirection_single m gx gy cur tx ty d hl, hd,
          (hmem d hd).1, (hmem d hd).2⟩
      | cons e rest2 =>
        obtain ⟨c, hc, hcm, _⟩ := chooseDirection_multi m gx gy cur tx ty
          _ hl (by simp only [List.length_cons]; omega)
        exact ⟨c, hc, hcm, (hmem c hcm).1, (hmem c hcm).2⟩
  refine ⟨?_, hpos, ?_⟩
  · intro h0
    subst h0
    exact chooseDirection_empty m gx gy cur tx ty hl
  · intro hop
    by_contra hne
    obtain ⟨d, hd, _, hdne, _⟩ := hpos hne
    rw [hop] at hd
    simp only [Option.some.injEq] at hd
    exact hdne hd.symm

/-- Witness for C10 at a ghost position whose lookahead tile has the two
exits LEFT and RIGHT. -/
theorem chosen_direction_membership_witness :
    simpleMaze.getAvailableExits (2 + (Direction.UP.value).1)
        (2 + (Direction.UP.value).2) Direction.UP =
      some [Direction.LEFT, Direction.RIGHT] ∧
    (([Direction.LEFT, Direction.RIGHT] = ([] : List Direction) →
      simpleMaze.chooseDirection 2 2 Direction.UP 1 3 =
        some (some Direction.UP.opposite)) ∧
    ([Direction.LEFT, Direction.RIGHT] ≠ ([] : List Direction) → ∃ d,
      simpleMaze.chooseDirection 2 2 Direction.UP 1 3 = some (some d) ∧
      d ∈ [Direction.LEFT, Direction.RIGHT] ∧
      d ≠ Direction.UP.opposite ∧
      simpleMaze.isValidTile (2 + (Direction.UP.value).1 + (d.value).1)
        (2 + (Direction.UP.value).2 + (d.value).2) = some true) ∧
    (simpleMaze.chooseDirection 2 2 Direction.UP 1 3 =
        some (some Direction.UP.opposite) →
      [Direction.LEFT, Direction.RIGHT] = ([] : List Direction))) :=
  ⟨by decide,
    chosen_direction_membership simpleMaze 2 2 Direction.UP 1 3
      [Direction.LEFT, Direction.RIGHT] (by decide)⟩

end PacMan
